import Mathlib

/-!
Shallow embedding of the `leaky` package (leaky-bucket rate limiter,
file `bucket.go`).

Modelling choices:
* `time.Time` values are integers counting milliseconds; the Go code
  computes `elapsed := float64(time.Since(lastState.LastUpdate) / time.Millisecond)`,
  so at millisecond resolution the elapsed value is exactly `now - lastUpdate`.
* Go `float64` quantities (`SpaceRemaining`, `leakRate`) are modelled as `ℚ`
  with exact arithmetic; `math.Floor` is `Int.floor`, `math.Min` is `min`.
* Go `int` (`size`, `count`) is modelled as `ℤ`.
* The Redis round trip of `getState` is modelled by passing the fetch outcome
  explicitly: `FetchResult.found st` is a successful `Get`+`Scan`, and the
  three error outcomes (`redis.Nil`, connection error, unmarshal failure) are
  the remaining constructors — the Go code treats every non-nil `Scan` error
  alike.
* `setState` is modelled by returning the written state (`Option bucketState`)
  from `fill`; `runAdd` applies that write to a store mapping keys to states.
* The several `time.Now()` calls inside one `fill` invocation are identified
  as a single instant `now`.
-/

namespace Leaky

/-- Mirrors Go struct `bucketState`: `LastUpdate time.Time`,
`SpaceRemaining float64`. -/
structure bucketState where
  lastUpdate : ℤ
  spaceRemaining : ℚ
  deriving DecidableEq, Repr

/-- Mirrors the fields of Go struct `Bucket` that the algorithm reads:
`size int`, `leakRate float64`, `bucketName string`. -/
structure Bucket where
  size : ℤ
  leakRate : ℚ
  bucketName : String
  deriving DecidableEq, Repr

/-- Go `getKey`: `fmt.Sprintf("leaky::%s::%s", b.bucketName, keyID)`. -/
def getKey (b : Bucket) (keyID : String) : String :=
  "leaky::" ++ b.bucketName ++ "::" ++ keyID

/-- The state built by the error branch of Go `getState`:
`lastState.SpaceRemaining = float64(b.size); lastState.LastUpdate = time.Now()`. -/
def freshState (b : Bucket) (now : ℤ) : bucketState :=
  { lastUpdate := now, spaceRemaining := (b.size : ℚ) }

/-- The success branch of Go `getState`:
`elapsed := float64(time.Since(lastState.LastUpdate) / time.Millisecond)`,
`newRemaining := math.Floor(lastState.SpaceRemaining + (elapsed * float64(b.leakRate)))`,
result `{SpaceRemaining: math.Min(float64(b.size), newRemaining), LastUpdate: time.Now()}`. -/
def refresh (b : Bucket) (lastState : bucketState) (now : ℤ) : bucketState :=
  let elapsed : ℚ := ((now - lastState.lastUpdate : ℤ) : ℚ)
  let newRemaining : ℚ := (⌊lastState.spaceRemaining + elapsed * b.leakRate⌋ : ℤ)
  { spaceRemaining := min ((b.size : ℚ)) newRemaining, lastUpdate := now }

/-- Outcome of the Redis `Get(...).Scan(&lastState)` in Go `getState`.
`found` is a nil error; the other three are the non-nil error cases, which
the Go code handles identically (only logging differs for `redis.Nil`). -/
inductive FetchResult where
  | found (st : bucketState)
  | notFound
  | unreachable
  | malformed
  deriving DecidableEq, Repr

/-- Go `getState`, with the store round trip made explicit: any `Scan` error
returns the fresh state, otherwise the leak is applied to the stored state. -/
def getState (b : Bucket) (fetch : FetchResult) (now : ℤ) : bucketState :=
  match fetch with
  | .found st => refresh b st now
  | .notFound => freshState b now
  | .unreachable => freshState b now
  | .malformed => freshState b now

/-- Go `fill`: fetch-and-refresh the state, deny if
`currState.SpaceRemaining < float64(count)`, otherwise write the decremented
state and allow.  The second component is the state passed to `setState`
(`none` when `setState` is not called). -/
def fill (b : Bucket) (count : ℤ) (fetch : FetchResult) (now : ℤ) :
    Bool × Option bucketState :=
  let currState := getState b fetch now
  if currState.spaceRemaining < (count : ℚ) then
    (false, none)
  else
    (true, some { spaceRemaining := currState.spaceRemaining - (count : ℚ),
                  lastUpdate := now })

/-- Go `Add`: `if b.fill(count, keyID) { return true }; return false`. -/
def Bucket.Add (b : Bucket) (count : ℤ) (fetch : FetchResult) (now : ℤ) : Bool :=
  if (fill b count fetch now).1 then true else false

/-- One full `Add` call against a store holding the serialized states: the
fetch reads the composed key, and the write of `fill` (if any) is applied
to the store. -/
def runAdd (b : Bucket) (count : ℤ) (keyID : String)
    (store : String → Option bucketState) (now : ℤ) :
    Bool × (String → Option bucketState) :=
  let fetch : FetchResult :=
    match store (getKey b keyID) with
    | some st => .found st
    | none => .notFound
  let r := fill b count fetch now
  match r.2 with
  | none => (r.1, store)
  | some st => (r.1, Function.update store (getKey b keyID) (some st))

/-- Go `newBucket`: `leakRate: float64(leakRatePerMin) / (60.0 * 1000.0)`. -/
def newBucket (size : ℤ) (leakRatePerMin : ℤ) (bucketName : String) : Bucket :=
  { size := size, leakRate := (leakRatePerMin : ℚ) / (60 * 1000),
    bucketName := bucketName }

/-- Stored states reachable from a fresh state by admissions that actually
wrote (refreshes alone never write).  `stepFound` is an `Add` whose fetch
found the current stored state; `stepFresh` is an `Add` whose fetch failed
(fail-open), after which the write happened on the fresh state. -/
inductive Reachable (b : Bucket) : bucketState → Prop where
  | fresh (now : ℤ) : Reachable b (freshState b now)
  | stepFound (st : bucketState) (count now : ℤ) (written : bucketState)
      (hre : Reachable b st) (helapsed : st.lastUpdate ≤ now) (hcount : 0 ≤ count)
      (hw : (fill b count (.found st) now).2 = some written) :
      Reachable b written
  | stepFresh (count now : ℤ) (written : bucketState) (hcount : 0 ≤ count)
      (hw : (fill b count .notFound now).2 = some written) :
      Reachable b written

/-- Validity of a fetch outcome at time `now`: when the store produced a
state, that state has non-negative remaining space and a timestamp not in
the future.  (The spec's data model guarantees both for stored states.) -/
def ValidFetch (now : ℤ) (fetch : FetchResult) : Prop :=
  ∀ st, fetch = .found st → 0 ≤ st.spaceRemaining ∧ st.lastUpdate ≤ now

/-- The clamp invariant of the spec's data model. -/
def StateInv (b : Bucket) (st : bucketState) : Prop :=
  0 ≤ st.spaceRemaining ∧ st.spaceRemaining ≤ (b.size : ℚ)

lemma refresh_le_size (b : Bucket) (st : bucketState) (now : ℤ) :
    (refresh b st now).spaceRemaining ≤ (b.size : ℚ) :=
  min_le_left _ _

lemma getState_le_size (b : Bucket) (fetch : FetchResult) (now : ℤ) :
    (getState b fetch now).spaceRemaining ≤ (b.size : ℚ) := by
  cases fetch with
  | found st => exact refresh_le_size b st now
  | notFound => exact le_refl _
  | unreachable => exact le_refl _
  | malformed => exact le_refl _

lemma refresh_nonneg (b : Bucket) (st : bucketState) (now : ℤ)
    (hsize : 0 ≤ b.size) (hrate : 0 ≤ b.leakRate)
    (h0 : 0 ≤ st.spaceRemaining) (he : st.lastUpdate ≤ now) :
    0 ≤ (refresh b st now).spaceRemaining := by
  simp only [refresh]
  apply le_min
  · exact_mod_cast hsize
  · have harg : (0 : ℚ) ≤ st.spaceRemaining +
        ((now - st.lastUpdate : ℤ) : ℚ) * b.leakRate := by
      apply add_nonneg h0
      apply mul_nonneg _ hrate
      exact_mod_cast sub_nonneg.2 he
    exact_mod_cast Int.floor_nonneg.2 harg

lemma getState_nonneg (b : Bucket) (fetch : FetchResult) (now : ℤ)
    (hsize : 0 ≤ b.size) (hrate : 0 ≤ b.leakRate) (hfetch : ValidFetch now fetch) :
    0 ≤ (getState b fetch now).spaceRemaining := by
  cases fetch with
  | found st =>
      obtain ⟨h0, he⟩ := hfetch st rfl
      exact refresh_nonneg b st now hsize hrate h0 he
  | notFound =>
      simp only [getState, freshState]
      exact_mod_cast hsize
  | unreachable =>
      simp only [getState, freshState]
      exact_mod_cast hsize
  | malformed =>
      simp only [getState, freshState]
      exact_mod_cast hsize

lemma fill_allow (b : Bucket) (count : ℤ) (fetch : FetchResult) (now : ℤ)
    (h : ¬ (getState b fetch now).spaceRemaining < (count : ℚ)) :
    fill b count fetch now =
      (true, some { spaceRemaining := (getState b fetch now).spaceRemaining - (count : ℚ),
                    lastUpdate := now }) := by
  simp only [fill, h, if_false]

lemma fill_deny (b : Bucket) (count : ℤ) (fetch : FetchResult) (now : ℤ)
    (h : (getState b fetch now).spaceRemaining < (count : ℚ)) :
    fill b count fetch now = (false, none) := by
  simp only [fill, h, if_true]

/-- C1: refreshing a found stored state at time `now` (with
`lastUpdate ≤ now`) yields `lastUpdate = now` and
`spaceRemaining = min(capacity, floor(storedRemaining + elapsed * leakRate))`
where `elapsed = now - lastUpdate` in milliseconds. -/
theorem getState_found_spec (b : Bucket) (st : bucketState) (now : ℤ)
    (_hnow : st.lastUpdate ≤ now) :
    (getState b (.found st) now).lastUpdate = now ∧
    (getState b (.found st) now).spaceRemaining =
      min (b.size : ℚ)
        ((⌊st.spaceRemaining + ((now - st.lastUpdate : ℤ) : ℚ) * b.leakRate⌋ : ℤ) : ℚ) :=
  ⟨rfl, rfl⟩

/-- C1 witness: a concrete refresh (capacity 10, leak rate 1/100 per ms,
stored 3 units, 250 ms elapsed). -/
theorem getState_found_spec_witness :
    (getState ⟨10, 1/100, "t"⟩ (.found ⟨0, 3⟩) 250).lastUpdate = 250 ∧
    (getState ⟨10, 1/100, "t"⟩ (.found ⟨0, 3⟩) 250).spaceRemaining =
      min ((Bucket.mk 10 (1/100) "t").size : ℚ)
        ((⌊(bucketState.mk 0 3).spaceRemaining +
            ((250 - (bucketState.mk 0 3).lastUpdate : ℤ) : ℚ) *
              (Bucket.mk 10 (1/100) "t").leakRate⌋ : ℤ) : ℚ) :=
  getState_found_spec ⟨10, 1/100, "t"⟩ ⟨0, 3⟩ 250 (by decide)

/-- C2: `Add` denies exactly when the refreshed space remaining is strictly
below `count`; otherwise it allows and the state written to the store is the
refreshed space minus `count`, timestamped `now`. -/
theorem Add_decision_spec (b : Bucket) (count : ℤ) (fetch : FetchResult) (now : ℤ) :
    (b.Add count fetch now = false ↔
      (getState b fetch now).spaceRemaining < (count : ℚ)) ∧
    ((count : ℚ) ≤ (getState b fetch now).spaceRemaining →
      b.Add count fetch now = true ∧
      (fill b count fetch now).2 =
        some { spaceRemaining := (getState b fetch now).spaceRemaining - (count : ℚ),
               lastUpdate := now }) := by
  by_cases h : (getState b fetch now).spaceRemaining < (count : ℚ)
  · constructor
    · simp [Bucket.Add, fill_deny b count fetch now h, h]
    · intro hge
      exact absurd h (not_lt.2 hge)
  · constructor
    · simp [Bucket.Add, fill_allow b count fetch now h, h]
    · intro _
      simp [Bucket.Add, fill_allow b count fetch now h]

/-- C6: a count exceeding the capacity is always denied, whatever the fetch
outcome (fresh bucket included): the refreshed space never exceeds the
capacity. -/
theorem overflow_deny (b : Bucket) (count : ℤ) (fetch : FetchResult) (now : ℤ)
    (hover : b.size < count) :
    b.Add count fetch now = false := by
  have hlt : (getState b fetch now).spaceRemaining < (count : ℚ) :=
    lt_of_le_of_lt (getState_le_size b fetch now) (by exact_mod_cast hover)
  simp [Bucket.Add, fill_deny b count fetch now hlt]

/-- C6 witness: `Add 11` on a fresh bucket of capacity 10 is denied (the
repository's `TestOverflowBucket`). -/
theorem overflow_deny_witness :
    (Bucket.mk 10 0 "test").Add 11 .notFound 0 = false :=
  overflow_deny ⟨10, 0, "test"⟩ 11 .notFound 0 (by decide)

lemma fill_write_inv (b : Bucket) (count : ℤ) (fetch : FetchResult) (now : ℤ)
    (written : bucketState) (hcount : 0 ≤ count)
    (hw : (fill b count fetch now).2 = some written) :
    StateInv b written := by
  by_cases h : (getState b fetch now).spaceRemaining < (count : ℚ)
  · rw [fill_deny b count fetch now h] at hw
    exact absurd hw (by simp)
  · rw [fill_allow b count fetch now h] at hw
    have hwritten : written =
        { spaceRemaining := (getState b fetch now).spaceRemaining - (count : ℚ),
          lastUpdate := now } := by
      exact (Option.some.injEq _ _ ▸ hw).symm
    subst hwritten
    constructor
    · exact sub_nonneg.2 (not_lt.1 h)
    · calc (getState b fetch now).spaceRemaining - (count : ℚ)
          ≤ (getState b fetch now).spaceRemaining :=
            sub_le_self _ (by exact_mod_cast hcount)
        _ ≤ (b.size : ℚ) := getState_le_size b fetch now

/-- C3: with non-negative capacity and leak rate, every stored state reachable
from a fresh state through admissions satisfies the clamp invariant
`0 ≤ spaceRemaining ≤ capacity`, and so does every state a refresh returns
from such a state after a non-negative elapsed time. -/
theorem clamp_invariant (b : Bucket) (hsize : 0 ≤ b.size) (hrate : 0 ≤ b.leakRate) :
    (∀ st, Reachable b st → StateInv b st) ∧
    (∀ st now, Reachable b st → st.lastUpdate ≤ now → StateInv b (refresh b st now)) := by
  have hreach : ∀ st, Reachable b st → StateInv b st := by
    intro st hre
    induction hre with
    | fresh now =>
        refine ⟨?_, le_refl _⟩
        simp only [freshState]
        exact_mod_cast hsize
    | stepFound st count now written hre helapsed hcount hw ih =>
        exact fill_write_inv b count (.found st) now written hcount hw
    | stepFresh count now written hcount hw =>
        exact fill_write_inv b count .notFound now written hcount hw
  refine ⟨hreach, fun st now hre he => ?_⟩
  exact ⟨refresh_nonneg b st now hsize hrate (hreach st hre).1 he,
         refresh_le_size b st now⟩

/-- C3 witness: a concrete bucket of capacity 5, the fresh state at time 0,
and its refresh at time 7 both satisfy the invariant. -/
theorem clamp_invariant_witness :
    StateInv ⟨5, 1, "x"⟩ (freshState ⟨5, 1, "x"⟩ 0) ∧
    StateInv ⟨5, 1, "x"⟩ (refresh ⟨5, 1, "x"⟩ (freshState ⟨5, 1, "x"⟩ 0) 7) :=
  ⟨(clamp_invariant ⟨5, 1, "x"⟩ (by decide) (by decide)).1 _ (.fresh 0),
   (clamp_invariant ⟨5, 1, "x"⟩ (by decide) (by decide)).2 _ 7 (.fresh 0) (by decide)⟩

/-- C4: every failed fetch (key missing, store unreachable, malformed stored
bytes) yields the fresh state `{spaceRemaining = capacity, lastUpdate = now}`,
and with capacity at least 1 the subsequent `Add 1` allows — a store failure
is never surfaced as a denial. -/
theorem failOpen_spec (b : Bucket) (fetch : FetchResult) (now : ℤ)
    (hfail : fetch = .notFound ∨ fetch = .unreachable ∨ fetch = .malformed) :
    getState b fetch now = freshState b now ∧
    (1 ≤ b.size → b.Add 1 fetch now = true) := by
  have hfresh : getState b fetch now = freshState b now := by
    rcases hfail with h | h | h <;> subst h <;> rfl
  refine ⟨hfresh, fun hs => ?_⟩
  have hnot : ¬ (getState b fetch now).spaceRemaining < ((1 : ℤ) : ℚ) := by
    rw [hfresh]
    simp only [freshState, not_lt]
    exact_mod_cast hs
  simp [Bucket.Add, fill_allow b 1 fetch now hnot]

/-- C4 witness: with capacity 1 and a missing key, the fetch falls back to the
fresh state and `Add 1` allows. -/
theorem failOpen_spec_witness :
    getState ⟨1, 0, "t"⟩ .notFound 0 = freshState ⟨1, 0, "t"⟩ 0 ∧
    (1 ≤ (Bucket.mk 1 0 "t").size → (Bucket.mk 1 0 "t").Add 1 .notFound 0 = true) :=
  failOpen_spec ⟨1, 0, "t"⟩ .notFound 0 (Or.inl rfl)

/-- C7: with a positive leak rate and a fixed stored state, the refreshed
space remaining is non-decreasing in the refresh time, and never exceeds the
capacity. -/
theorem leak_monotone (b : Bucket) (st : bucketState) (now₁ now₂ : ℤ)
    (hrate : 0 < b.leakRate) (h12 : now₁ ≤ now₂) :
    (refresh b st now₁).spaceRemaining ≤ (refresh b st now₂).spaceRemaining ∧
    (refresh b st now₂).spaceRemaining ≤ (b.size : ℚ) := by
  refine ⟨?_, refresh_le_size b st now₂⟩
  simp only [refresh]
  apply min_le_min (le_refl _)
  have harg : st.spaceRemaining + ((now₁ - st.lastUpdate : ℤ) : ℚ) * b.leakRate ≤
      st.spaceRemaining + ((now₂ - st.lastUpdate : ℤ) : ℚ) * b.leakRate := by
    apply add_le_add_left
    apply mul_le_mul_of_nonneg_right _ (le_of_lt hrate)
    exact_mod_cast sub_le_sub_right h12 st.lastUpdate
  exact_mod_cast Int.floor_le_floor harg

/-- C7 witness: capacity 10, leak rate 1 per ms, stored 3 units at time 0:
the refresh at time 1 is below the refresh at time 2, which is below 10. -/
theorem leak_monotone_witness :
    (refresh ⟨10, 1, "t"⟩ ⟨0, 3⟩ 1).spaceRemaining ≤
      (refresh ⟨10, 1, "t"⟩ ⟨0, 3⟩ 2).spaceRemaining ∧
    (refresh ⟨10, 1, "t"⟩ ⟨0, 3⟩ 2).spaceRemaining ≤ ((Bucket.mk 10 1 "t").size : ℚ) :=
  leak_monotone ⟨10, 1, "t"⟩ ⟨0, 3⟩ 1 2 (by decide) (by decide)

lemma runAdd_fst (b : Bucket) (count : ℤ) (keyID : String)
    (store : String → Option bucketState) (now : ℤ) :
    (runAdd b count keyID store now).1 =
      (fill b count
        (match store (getKey b keyID) with
         | some st => .found st
         | none => .notFound) now).1 := by
  simp only [runAdd]
  cases hfill : (fill b count
      (match store (getKey b keyID) with
       | some st => FetchResult.found st
       | none => FetchResult.notFound) now).2 <;> simp [hfill]

lemma fill_fst_false_snd_none (b : Bucket) (count : ℤ) (fetch : FetchResult)
    (now : ℤ) (h : (fill b count fetch now).1 = false) :
    (fill b count fetch now).2 = none := by
  by_cases hlt : (getState b fetch now).spaceRemaining < (count : ℚ)
  · rw [fill_deny b count fetch now hlt]
  · rw [fill_allow b count fetch now hlt] at h
    exact absurd h (by simp)

/-- C5: a denied `Add` performs no write: the state handed to `setState` is
`none` and the store after the call is exactly the store before it, at every
key. -/
theorem deny_no_write (b : Bucket) (count : ℤ) (keyID : String)
    (store : String → Option bucketState) (now : ℤ)
    (hdeny : (runAdd b count keyID store now).1 = false) :
    (fill b count
      (match store (getKey b keyID) with
       | some st => .found st
       | none => .notFound) now).2 = none ∧
    (runAdd b count keyID store now).2 = store := by
  have hfillfst := (runAdd_fst b count keyID store now) ▸ hdeny
  have hnone := fill_fst_false_snd_none b count _ now hfillfst
  refine ⟨hnone, ?_⟩
  simp only [runAdd]
  rw [hnone]

/-- C5 witness: a zero-capacity bucket against an empty store denies `Add 1`
and leaves the store untouched. -/
theorem deny_no_write_witness :
    (fill ⟨0, 0, "t"⟩ 1
      (match (fun (_ : String) => (none : Option bucketState)) (getKey ⟨0, 0, "t"⟩ "k") with
       | some st => .found st
       | none => .notFound) 0).2 = none ∧
    (runAdd ⟨0, 0, "t"⟩ 1 "k" (fun _ => none) 0).2 = fun _ => none :=
  deny_no_write ⟨0, 0, "t"⟩ 1 "k" (fun _ => none) 0 (by decide)

/-- C9: a strictly negative count is never rejected: `Add` allows, and the
written state carries `spaceRemaining = refreshed + |count|` with
`lastUpdate = now`; on a fresh fetch the written value strictly exceeds the
capacity. -/
theorem negative_count_add (b : Bucket) (count : ℤ) (fetch : FetchResult) (now : ℤ)
    (hneg : count < 0) (hsize : 0 ≤ b.size) (hrate : 0 ≤ b.leakRate)
    (hfetch : ValidFetch now fetch) :
    b.Add count fetch now = true ∧
    (fill b count fetch now).2 =
      some { spaceRemaining := (getState b fetch now).spaceRemaining + |(count : ℚ)|,
             lastUpdate := now } ∧
    (fetch = .notFound →
      (b.size : ℚ) < (getState b fetch now).spaceRemaining + |(count : ℚ)|) := by
  have hq : (count : ℚ) < 0 := by exact_mod_cast hneg
  have habs : |(count : ℚ)| = -(count : ℚ) := abs_of_neg hq
  have hnn := getState_nonneg b fetch now hsize hrate hfetch
  have hnot : ¬ (getState b fetch now).spaceRemaining < (count : ℚ) :=
    not_lt.2 (le_trans (le_of_lt hq) hnn)
  refine ⟨by simp [Bucket.Add, fill_allow b count fetch now hnot], ?_, ?_⟩
  · rw [fill_allow b count fetch now hnot]
    rw [habs, sub_eq_add_neg]
  · intro hnf
    subst hnf
    have hcurr : (getState b .notFound now).spaceRemaining = (b.size : ℚ) := rfl
    rw [hcurr, habs]
    linarith

/-- C9 witness: `Add (-1)` on a fresh bucket of capacity 2 allows and writes
3 units of space, one more than the capacity. -/
theorem negative_count_add_witness :
    (Bucket.mk 2 0 "t").Add (-1) .notFound 0 = true ∧
    (fill ⟨2, 0, "t"⟩ (-1) .notFound 0).2 =
      some { spaceRemaining := (getState ⟨2, 0, "t"⟩ .notFound 0).spaceRemaining +
               |((-1 : ℤ) : ℚ)|,
             lastUpdate := 0 } ∧
    (FetchResult.notFound = .notFound →
      ((Bucket.mk 2 0 "t").size : ℚ) <
        (getState ⟨2, 0, "t"⟩ .notFound 0).spaceRemaining + |((-1 : ℤ) : ℚ)|) :=
  negative_count_add ⟨2, 0, "t"⟩ (-1) .notFound 0 (by decide) (by decide) (by decide)
    (fun st h => by cases h)

/-- C10: `Add 0` always allows (capacity 0 included) and writes back the
refreshed space unchanged with `lastUpdate = now`, resetting the leak clock
without consuming capacity. -/
theorem zero_count_add (b : Bucket) (fetch : FetchResult) (now : ℤ)
    (hsize : 0 ≤ b.size) (hrate : 0 ≤ b.leakRate) (hfetch : ValidFetch now fetch) :
    b.Add 0 fetch now = true ∧
    (fill b 0 fetch now).2 =
      some { spaceRemaining := (getState b fetch now).spaceRemaining,
             lastUpdate := now } := by
  have hnn := getState_nonneg b fetch now hsize hrate hfetch
  have hnot : ¬ (getState b fetch now).spaceRemaining < ((0 : ℤ) : ℚ) := by
    simpa using not_lt.2 hnn
  refine ⟨by simp [Bucket.Add, fill_allow b 0 fetch now hnot], ?_⟩
  rw [fill_allow b 0 fetch now hnot]
  norm_num

/-- C10 witness: `Add 0` on a fresh zero-capacity bucket allows and writes
the unchanged (zero) space with the new timestamp. -/
theorem zero_count_add_witness :
    (Bucket.mk 0 0 "t").Add 0 .notFound 5 = true ∧
    (fill ⟨0, 0, "t"⟩ 0 .notFound 5).2 =
      some { spaceRemaining := (getState ⟨0, 0, "t"⟩ .notFound 5).spaceRemaining,
             lastUpdate := 5 } :=
  zero_count_add ⟨0, 0, "t"⟩ .notFound 5 (by decide) (by decide) (fun st h => by cases h)

lemma colonFree_sep_inj (l₁ : List Char) : ∀ (l₂ t₁ t₂ : List Char),
    (∀ c ∈ l₁, c ≠ ':') → (∀ c ∈ l₂, c ≠ ':') →
    l₁ ++ ':' :: ':' :: t₁ = l₂ ++ ':' :: ':' :: t₂ → l₁ = l₂ ∧ t₁ = t₂ := by
  induction l₁ with
  | nil =>
      intro l₂ t₁ t₂ h₁ h₂ heq
      cases l₂ with
      | nil => simpa using heq
      | cons c l₂' =>
          exfalso
          have hc : (':' : Char) = c := by
            have := congrArg (fun l => l.head?) heq
            simpa using this
          exact h₂ c (List.mem_cons_self c l₂') hc.symm
  | cons c l₁' ih =>
      intro l₂ t₁ t₂ h₁ h₂ heq
      cases l₂ with
      | nil =>
          exfalso
          have hc : c = ':' := by
            have := congrArg (fun l => l.head?) heq
            simpa using this
          exact h₁ c (List.mem_cons_self c l₁') hc
      | cons d l₂' =>
          have hh : c = d := by
            have := congrArg (fun l => l.head?) heq
            simpa using this
          have ht : l₁' ++ ':' :: ':' :: t₁ = l₂' ++ ':' :: ':' :: t₂ := by
            have := congrArg List.tail heq
            simpa using this
          obtain ⟨he, ht'⟩ := ih l₂' t₁ t₂
            (fun x hx => h₁ x (List.mem_cons_of_mem c hx))
            (fun x hx => h₂ x (List.mem_cons_of_mem d hx)) ht
          exact ⟨by rw [hh, he], ht'⟩

/-- C8 counterexample: the composed keys of the two distinct
(bucketName, clientKey) pairs ("a::b", "c") and ("a", "b::c") coincide, so
the distinctness part of the claim fails when bucket names may contain the
separator characters. -/
theorem getKey_collision :
    getKey ⟨0, 0, "a::b"⟩ "c" = getKey ⟨0, 0, "a"⟩ "b::c" ∧
    (("a::b" : String), ("c" : String)) ≠ (("a" : String), ("b::c" : String)) :=
  ⟨rfl, by decide⟩

/-- C8 (amended): the composed key is exactly
`"leaky::" ++ bucketName ++ "::" ++ clientKey`, and for bucket names free of
the character ':' equal composed keys force equal bucket names and equal
client keys, isolating buckets across both name and client. -/
theorem getKey_spec :
    (∀ (b : Bucket) (k : String),
      getKey b k = "leaky::" ++ b.bucketName ++ "::" ++ k) ∧
    (∀ (b₁ b₂ : Bucket) (k₁ k₂ : String),
      (∀ c ∈ b₁.bucketName.data, c ≠ ':') →
      (∀ c ∈ b₂.bucketName.data, c ≠ ':') →
      getKey b₁ k₁ = getKey b₂ k₂ →
      b₁.bucketName = b₂.bucketName ∧ k₁ = k₂) := by
  refine ⟨fun b k => rfl, fun b₁ b₂ k₁ k₂ h₁ h₂ hkey => ?_⟩
  have hdata := congrArg String.data hkey
  simp only [getKey, String.data_append, List.append_assoc] at hdata
  have hcancel := List.append_cancel_left hdata
  simp only [List.cons_append, List.nil_append] at hcancel
  obtain ⟨hn, hk⟩ := colonFree_sep_inj _ _ _ _ h₁ h₂ hcancel
  exact ⟨String.ext hn, String.ext hk⟩

end Leaky
